import Mathlib

/-!
Verification of the minimal transactional table storage engine described by
the repository's specification.  The repository's only source file is a
narrated Databricks notebook ("Understanding Delta Tables.py") that issues SQL
against a managed Delta table; the engine whose behaviour the notebook
observes is not part of the repository's sources.  Following the
specification, the engine (log-structured, copy-on-write table format with
atomic versioned commits) is modelled here from the spec's own component
contracts, and the notebook's scenario (create, two inserts, one update) is
replayed against that model.
-/

namespace Delta

/-- Modelled from the spec: column data types of the scenario schema
`{id:int, name:string, salary:double}`.  The notebook's `double` is modelled
as an exact rational (the spec's design notes state that base-2 floating
point artefacts are not a correctness requirement of the engine). -/
inductive DataType
  | int
  | str
  | dbl
deriving DecidableEq

/-- Modelled from the spec: a single column value of a row. -/
inductive Value
  | vInt (i : Int)
  | vStr (s : String)
  | vDbl (q : Rat)
deriving DecidableEq

/-- A row is an ordered list of column values. -/
abbrev Row := List Value

/-- Modelled from the spec: a schema is an ordered sequence of
(column name, data type) pairs. -/
abbrev Schema := List (String × DataType)

/-- Modelled from the spec: operation kinds recorded in a log record. -/
inductive OpKind
  | CREATE
  | INSERT
  | UPDATE
  | DELETE
  | SCHEMA_CHANGE
deriving DecidableEq

/-- Modelled from the spec: an immutable data file holding a batch of rows.
`name` is the unique file name (spec: "file name (content- or
sequence-derived, unique)"); the engine issues sequence-derived names from a
fresh-name counter. -/
structure DataFile where
  name : Nat
  rows : List Row
deriving DecidableEq

/-- Modelled from the spec: one committed log record — version number,
operation kind, list of added data files, list of removed data file names,
optional schema snapshot.  Timestamp/user metadata is environment-provided
and carries no engine semantics, so it is not modelled. -/
structure LogRecord where
  version : Nat
  op : OpKind
  adds : List DataFile
  removes : List Nat
  schema : Option Schema
deriving DecidableEq

/-- Modelled from the spec: the table state is its append-only transaction
log (commit with version `v` sits at position `v`; the commit protocol keeps
versions contiguous from 0) plus the fresh-name counter for data files. -/
structure TableState where
  log : List LogRecord
  nextFile : Nat
deriving DecidableEq

/-- Modelled from the spec: the error taxonomy of §7. -/
inductive Err
  | alreadyExists
  | conflict
  | concurrentModification
  | notFound
  | corruptFile
deriving DecidableEq

/-- Modelled from the spec: per-file statistics computed by the codec. -/
structure Stats where
  rowCount : Nat
  byteSize : Nat
deriving DecidableEq

/-! ## Data File Codec (spec §4.2) -/

/-- Modelled from the spec: `encode(rows, schema) -> bytes, stats`.  The
byte container is the row batch flattened value-by-value; `byteSize` is the
payload length and `rowCount` the number of rows. -/
def encode (rows : List Row) (_schema : Schema) : List Value × Stats :=
  let payload := rows.flatten
  (payload, ⟨rows.length, payload.length⟩)

/-- Splits a flat payload back into rows of arity `n`; `none` signals a
corrupt container (payload not a whole number of rows, or arity 0 with a
non-empty payload). -/
def chunkRows (n : Nat) : List Value → Option (List Row)
  | [] => some []
  | v :: vs =>
    if hn : n = 0 then none
    else
      let row := (v :: vs).take n
      if row.length = n then (chunkRows n ((v :: vs).drop n)).map (row :: ·)
      else none
termination_by vs => vs.length
decreasing_by
  have hn1 : 1 ≤ n := Nat.one_le_iff_ne_zero.mpr hn
  simp only [List.length_drop, List.length_cons]
  omega

/-- Modelled from the spec: `decode(bytes, schema) -> sequence of rows`,
failing with CorruptFile when the bytes do not match the expected container
format or schema arity. -/
def decode (bytes : List Value) (schema : Schema) : Except Err (List Row) :=
  match chunkRows schema.length bytes with
  | some rs => .ok rs
  | none => .error .corruptFile

/-! ## Transaction Log and Snapshot Resolver (spec §4.3, §4.4) -/

/-- Modelled from the spec: `latestVersion()` lists committed version files
and takes the maximum; since committed versions are contiguous from 0, the
maximum is `log.length - 1`, and an empty log yields no version. -/
def latestVersion (st : TableState) : Option Nat :=
  match st.log.length with
  | 0 => none
  | Nat.succ n => some n

/-- Modelled from the spec: durably committing the next version appends one
record whose version is the next contiguous slot (the sequential image of
`propose(base+1)` succeeding on the create-if-absent primitive). -/
def commit (st : TableState) (op : OpKind) (adds : List DataFile)
    (removes : List Nat) (sch : Option Schema) : TableState :=
  { st with log := st.log ++ [⟨st.log.length, op, adds, removes, sch⟩] }

/-- A pending mutation, as handed to the commit protocol. -/
structure PendingCommit where
  op : OpKind
  adds : List DataFile
  removes : List Nat
  schema : Option Schema

/-- Runs one pending commit against a table state. -/
def applyPending (st : TableState) (p : PendingCommit) : TableState :=
  commit st p.op p.adds p.removes p.schema

/-- Runs a whole sequence of successful commits from the empty table. -/
def commitSeq (l : List PendingCommit) : TableState :=
  l.foldl applyPending ⟨[], 0⟩

/-- Modelled from the spec: one replay step of the snapshot resolver —
apply a record's remove set then its add set to the accumulated file set. -/
def fileStep (acc : List DataFile) (r : LogRecord) : List DataFile :=
  acc.filter (fun f => decide (f.name ∉ r.removes)) ++ r.adds

/-- Modelled from the spec: the live file set obtained by replaying a log
prefix in increasing version order from version 0. -/
def liveFiles (log : List LogRecord) : List DataFile :=
  log.foldl fileStep []

/-- The live file set of the snapshot resolved at version `v`: replay of the
records with version ≤ v (record with version `k` sits at position `k`). -/
def liveAt (log : List LogRecord) (v : Nat) : List DataFile :=
  liveFiles (log.take (v + 1))

/-- The set of names added by one record. -/
def addSet (r : LogRecord) : Finset Nat :=
  (r.adds.map DataFile.name).toFinset

/-- The set of names removed by one record. -/
def removeSet (r : LogRecord) : Finset Nat :=
  r.removes.toFinset

/-- The name-set image of one replay step. -/
def nameStep (acc : Finset Nat) (r : LogRecord) : Finset Nat :=
  (acc \ removeSet r) ∪ addSet r

/-- The left fold of the log records, in strictly increasing version order,
at the level of file-name sets. -/
def resolveNames (log : List LogRecord) : Finset Nat :=
  log.foldl nameStep ∅

/-- All file names added anywhere in a log. -/
def addedAll : List LogRecord → Finset Nat
  | [] => ∅
  | r :: rest => addSet r ∪ addedAll rest

/-- All file names removed anywhere in a log. -/
def removedAll : List LogRecord → Finset Nat
  | [] => ∅
  | r :: rest => removeSet r ∪ removedAll rest

/-- Well-formedness of a log with respect to an already-removed name set:
no record adds a name that was removed by an earlier record (or by the same
record).  The engine guarantees this by issuing fresh data-file names from a
counter, so a name, once removed, never reappears in an add set. -/
def NoReAdd (removed : Finset Nat) : List LogRecord → Prop
  | [] => True
  | r :: rest =>
      (∀ n ∈ addSet r, n ∉ removed ∪ removeSet r) ∧
      NoReAdd (removed ∪ removeSet r) rest

/-! ## Checkpoints (spec §4.5) -/

/-- Modelled from the spec: a checkpoint is a consolidated serialization of
a snapshot at some version, never authoritative over the log. -/
structure Checkpoint where
  version : Nat
  files : List DataFile

/-- A checkpoint is valid when its content equals the snapshot the log
itself resolves at the checkpoint's version. -/
def ValidCheckpoint (log : List LogRecord) (ck : Checkpoint) : Prop :=
  ck.files = liveAt log ck.version

/-- Modelled from the spec: resolving version `v` via a checkpoint — start
from the checkpoint's file set and replay only the log tail from
`checkpointVersion + 1` through `v`. -/
def resolveFrom (ck : Checkpoint) (log : List LogRecord) (v : Nat) : List DataFile :=
  ((log.take (v + 1)).drop (ck.version + 1)).foldl fileStep ck.files

/-! ## Table Engine (spec §4.6) -/

/-- Modelled from the spec: `create(schema)` fails with AlreadyExists if
`latestVersion()` is defined; otherwise commits version 0 with operation
CREATE, empty file set and the given schema. -/
def create (schema : Schema) (st : TableState) : Except Err TableState :=
  match latestVersion st with
  | some _ => .error .alreadyExists
  | none => .ok (commit st .CREATE [] [] (some schema))

/-- Modelled from the spec: `insert(rows)` encodes the rows into new data
file(s) and commits operation INSERT adding those files, removing none.
The batch fits one file (the default `maxFileBytes` threshold exceeds the
scenario's batch sizes), named from the fresh-name counter. -/
def insert (rows : List Row) (st : TableState) : TableState :=
  let f : DataFile := ⟨st.nextFile, rows⟩
  { commit st .INSERT [f] [] none with nextFile := st.nextFile + 1 }

/-- Copy-on-write row rewrite: a row matching the predicate is transformed,
any other row is kept unchanged. -/
def rewriteRow (p : Row → Bool) (t : Row → Row) (r : Row) : Row :=
  if p r then t r else r

/-- Re-encodes each rewritten source file into a fresh new data file whose
rows are the full resulting set (matching rows transformed, non-matching
rows kept), with fresh names issued from `n` upwards. -/
def rewriteFiles (p : Row → Bool) (t : Row → Row) : Nat → List DataFile → List DataFile
  | _, [] => []
  | n, f :: fs => ⟨n, f.rows.map (rewriteRow p t)⟩ :: rewriteFiles p t (n + 1) fs

/-- The live files of the current snapshot that hold at least one row
matching the predicate — exactly the files `update` rewrites. -/
def touchedOf (p : Row → Bool) (st : TableState) : List DataFile :=
  (liveFiles st.log).filter (fun f => f.rows.any p)

/-- The UPDATE log record committed by `update`: it adds the re-encoded
rewrites of the touched files and removes exactly the touched files. -/
def updateRec (p : Row → Bool) (t : Row → Row) (st : TableState) : LogRecord :=
  ⟨st.log.length, .UPDATE, rewriteFiles p t st.nextFile (touchedOf p st),
    (touchedOf p st).map DataFile.name, none⟩

/-- Modelled from the spec: `update(predicate, transform)` resolves the
current snapshot, rewrites exactly the live files having at least one
matching row, and commits operation UPDATE removing the rewritten source
files and adding the new ones; files with zero matches are untouched. -/
def update (p : Row → Bool) (t : Row → Row) (st : TableState) : TableState :=
  { commit st .UPDATE (rewriteFiles p t st.nextFile (touchedOf p st))
      ((touchedOf p st).map DataFile.name) none with
      nextFile := st.nextFile + (touchedOf p st).length }

/-- Modelled from the spec: `querySnapshot()` resolves the live files of the
latest version and concatenates their rows in file-list order. -/
def querySnapshot (st : TableState) : List Row :=
  ((liveFiles st.log).map DataFile.rows).flatten

/-- Modelled from the spec: `describeHistory()` returns one entry per
commit, oldest first (the natural order matching commit order); each entry
carries the commit's version and operation kind. -/
def describeHistory (st : TableState) : List (Nat × OpKind) :=
  st.log.map (fun r => (r.version, r.op))

/-! ## The notebook scenario

Create the `employees` table with schema `{id:int, name:string,
salary:double}`, insert the 5 initial rows, insert the 2 duplicate rows,
then raise every John's salary by the factor 1.1. -/

/-- The `employees` schema of the notebook. -/
def empSchema : Schema := [("id", .int), ("name", .str), ("salary", .dbl)]

/-- Row (1, 'John', 100000). -/
def row1 : Row := [.vInt 1, .vStr "John", .vDbl 100000]

/-- Row (2, 'Jane', 120000). -/
def row2 : Row := [.vInt 2, .vStr "Jane", .vDbl 120000]

/-- Row (3, 'Bob', 80000). -/
def row3 : Row := [.vInt 3, .vStr "Bob", .vDbl 80000]

/-- Row (4, 'Alice', 90000). -/
def row4 : Row := [.vInt 4, .vStr "Alice", .vDbl 90000]

/-- Row (5, 'Mary', 110000). -/
def row5 : Row := [.vInt 5, .vStr "Mary", .vDbl 110000]

/-- Duplicate row (6, 'John', 100000). -/
def row6 : Row := [.vInt 6, .vStr "John", .vDbl 100000]

/-- Duplicate row (7, 'Jane', 120000). -/
def row7 : Row := [.vInt 7, .vStr "Jane", .vDbl 120000]

/-- The resolved predicate of `WHERE name = 'John'`. -/
def johnPred (r : Row) : Bool :=
  match r with
  | [_, .vStr n, _] => n = "John"
  | _ => false

/-- The resolved transform of `SET salary = salary * 1.1`. -/
def raiseSalary (r : Row) : Row :=
  match r with
  | [i, n, .vDbl s] => [i, n, .vDbl (s * (11 / 10 : Rat))]
  | r' => r'

/-- The empty (uninitialized) table. -/
def st0 : TableState := ⟨[], 0⟩

/-- State after `CREATE TABLE employees`. -/
def stAfterCreate : TableState := (create empSchema st0).toOption.getD st0

/-- State after the insert of the 5 initial rows followed by the insert of
the 2 duplicate rows. -/
def stAfterInserts : TableState :=
  insert [row6, row7] (insert [row1, row2, row3, row4, row5] stAfterCreate)

/-- State after `UPDATE employees SET salary = salary * 1.1 WHERE name = 'John'`. -/
def stAfterUpdate : TableState := update johnPred raiseSalary stAfterInserts

/-- Row 1 after the 10% raise: (1, 'John', 110000). -/
def row1Up : Row := [.vInt 1, .vStr "John", .vDbl 110000]

/-- Row 6 after the 10% raise: (6, 'John', 110000). -/
def row6Up : Row := [.vInt 6, .vStr "John", .vDbl 110000]

/-! ## Concurrency model (spec §5)

Two independent callers insert into the same table concurrently.  The only
shared state is the blob store's log directory, and the only synchronisation
primitive is atomic create-if-absent on the next version's file name: a
caller reads `latestVersion()`, proposes `base + 1`, and on Conflict
re-reads and retries.  Commit with version `v` occupies position `v` of the
log, so create-if-absent on the file of version `v` succeeds exactly when
`v` equals the current log length. -/

/-- The INSERT log record a caller commits at version `v`. -/
def insRec (v : Nat) (fs : List DataFile) : LogRecord :=
  ⟨v, .INSERT, fs, [], none⟩

/-- Local protocol state of one caller: about to read the latest version,
holding a proposed version, or durably committed. -/
inductive Proc
  | idle
  | proposed (v : Nat)
  | done (v : Nat)
deriving DecidableEq

/-- The shared system: the log in the blob store plus both callers. -/
structure CSys where
  log : List LogRecord
  pA : Proc
  pB : Proc

/-- One interleaved step of the two concurrent inserts.  `fA` and `fB` are
the data files caller A and caller B respectively are inserting.  A `read`
computes `base + 1` from the current log; a `commit` is a successful
create-if-absent on that version's file; a `conflict` is a failed
create-if-absent, sending the caller back to re-read. -/
inductive CStep (fA fB : List DataFile) : CSys → CSys → Prop
  | readA (log : List LogRecord) (pB : Proc) :
      CStep fA fB ⟨log, .idle, pB⟩ ⟨log, .proposed log.length, pB⟩
  | commitA (log : List LogRecord) (pB : Proc) (v : Nat) (h : v = log.length) :
      CStep fA fB ⟨log, .proposed v, pB⟩ ⟨log ++ [insRec v fA], .done v, pB⟩
  | conflictA (log : List LogRecord) (pB : Proc) (v : Nat) (h : v ≠ log.length) :
      CStep fA fB ⟨log, .proposed v, pB⟩ ⟨log, .idle, pB⟩
  | readB (log : List LogRecord) (pA : Proc) :
      CStep fA fB ⟨log, pA, .idle⟩ ⟨log, pA, .proposed log.length⟩
  | commitB (log : List LogRecord) (pA : Proc) (v : Nat) (h : v = log.length) :
      CStep fA fB ⟨log, pA, .proposed v⟩ ⟨log ++ [insRec v fB], pA, .done v⟩
  | conflictB (log : List LogRecord) (pA : Proc) (v : Nat) (h : v ≠ log.length) :
      CStep fA fB ⟨log, pA, .proposed v⟩ ⟨log, pA, .idle⟩

/-- The inductive invariant of the two-caller race over initial log `log0`:
whichever caller has committed owns a version slot at the end of the log,
a proposed version is one of the lengths the log had at some read, and once
both callers are done the log holds exactly both records in one of the two
serial orders. -/
def Inv (log0 : List LogRecord) (fA fB : List DataFile) (s : CSys) : Prop :=
  match s.pA, s.pB with
  | .idle, .idle => s.log = log0
  | .proposed v, .idle => s.log = log0 ∧ v = log0.length
  | .idle, .proposed w => s.log = log0 ∧ w = log0.length
  | .proposed v, .proposed w => s.log = log0 ∧ v = log0.length ∧ w = log0.length
  | .done va, .idle => s.log = log0 ++ [insRec va fA] ∧ va = log0.length
  | .done va, .proposed w =>
      s.log = log0 ++ [insRec va fA] ∧ va = log0.length ∧
        (w = log0.length ∨ w = log0.length + 1)
  | .idle, .done vb => s.log = log0 ++ [insRec vb fB] ∧ vb = log0.length
  | .proposed v, .done vb =>
      s.log = log0 ++ [insRec vb fB] ∧ vb = log0.length ∧
        (v = log0.length ∨ v = log0.length + 1)
  | .done va, .done vb =>
      (va = log0.length ∧ vb = log0.length + 1 ∧
        s.log = log0 ++ [insRec va fA, insRec vb fB]) ∨
      (vb = log0.length ∧ va = log0.length + 1 ∧
        s.log = log0 ++ [insRec vb fB, insRec va fA])

/-! ## Theorems -/

theorem applyPending_log (st : TableState) (p : PendingCommit) :
    (applyPending st p).log
      = st.log ++ [⟨st.log.length, p.op, p.adds, p.removes, p.schema⟩] := rfl

theorem foldl_applyPending_versions (l : List PendingCommit) (st : TableState) :
    (l.foldl applyPending st).log.map LogRecord.version
      = st.log.map LogRecord.version ++ List.range' st.log.length l.length := by
  induction l generalizing st with
  | nil => simp
  | cons p l ih =>
      rw [List.foldl_cons, ih]
      simp [applyPending, commit, List.range'_succ, List.append_assoc]

/-- C1: for every sequence of successful commits against a table,
`latestVersion()` equals the number of successful commits minus one (and is
undefined for the empty sequence), and the committed version numbers are
exactly `0, 1, ..., n-1` in log order — contiguous from 0, each commit
increasing the version by exactly 1, none skipped or duplicated. -/
theorem latestVersion_commitSeq (l : List PendingCommit) :
    latestVersion (commitSeq l)
        = (if l.length = 0 then none else some (l.length - 1)) ∧
    (commitSeq l).log.length = l.length ∧
    (commitSeq l).log.map LogRecord.version = List.range l.length := by
  have hv := foldl_applyPending_versions l ⟨[], 0⟩
  simp only [commitSeq] at *
  have hmap : (l.foldl applyPending ⟨[], 0⟩).log.map LogRecord.version
      = List.range l.length := by
    rw [hv]; simp [List.range_eq_range']
  have hlen : (l.foldl applyPending ⟨[], 0⟩).log.length = l.length := by
    have := congrArg List.length hmap
    simpa using this
  refine ⟨?_, hlen, hmap⟩
  unfold latestVersion
  rw [hlen]
  cases l.length with
  | zero => rfl
  | succ n => simp

theorem chunkRows_append (n : Nat) (hn : n ≠ 0) (r rest : List Value)
    (hr : r.length = n) :
    chunkRows n (r ++ rest) = (chunkRows n rest).map (r :: ·) := by
  cases r with
  | nil => exact absurd hr.symm hn
  | cons v vs =>
      show chunkRows n (v :: (vs ++ rest)) = _
      rw [chunkRows.eq_def]
      have hvv : v :: (vs ++ rest) = (v :: vs) ++ rest := rfl
      simp only [hn, dite_false, hvv]
      rw [← hr, List.take_left, List.drop_left]
      simp [hr]

theorem chunkRows_flatten (n : Nat) (hn : n ≠ 0) (rows : List Row)
    (h : ∀ r ∈ rows, r.length = n) :
    chunkRows n rows.flatten = some rows := by
  induction rows with
  | nil => simp only [List.flatten_nil]; rw [chunkRows.eq_def]
  | cons r rs ih =>
      rw [List.flatten_cons, chunkRows_append n hn r rs.flatten (h r (by simp)),
        ih (fun r hr => h r (by simp [hr]))]
      rfl

/-- C4: decoding the bytes produced by `encode(rows, schema)` with the same
schema reproduces exactly the original rows in order and count, and the
`stats.rowCount` returned by `encode` equals the number of rows obtained by
decoding (rows must conform to the schema arity, which must be positive —
otherwise there is no container of that shape to decode). -/
theorem decode_encode_roundtrip (rows : List Row) (schema : Schema)
    (hs : schema.length ≠ 0) (h : ∀ r ∈ rows, r.length = schema.length) :
    decode (encode rows schema).1 schema = .ok rows ∧
    (encode rows schema).2.rowCount = rows.length := by
  constructor
  · unfold decode encode
    rw [chunkRows_flatten schema.length hs rows h]
  · rfl

/-- Witness for C4: the codec round-trips the notebook's first two rows
under the `employees` schema, with `rowCount = 2`. -/
theorem decode_encode_roundtrip_witness :
    decode (encode [row1, row2] empSchema).1 empSchema = .ok [row1, row2] ∧
    (encode [row1, row2] empSchema).2.rowCount = 2 :=
  decode_encode_roundtrip [row1, row2] empSchema (by decide) (by decide)

theorem NoReAdd_addedAll (l : List LogRecord) (R : Finset Nat)
    (h : NoReAdd R l) : ∀ n ∈ addedAll l, n ∉ R := by
  induction l generalizing R with
  | nil => simp [addedAll]
  | cons r rest ih =>
      obtain ⟨h1, h2⟩ := h
      intro n hn
      rcases Finset.mem_union.mp hn with hn | hn
      · intro hR
        exact h1 n hn (Finset.mem_union_left _ hR)
      · intro hR
        exact ih (R ∪ removeSet r) h2 n hn (Finset.mem_union_left _ hR)

theorem foldl_nameStep_eq (l : List LogRecord) (R acc : Finset Nat)
    (h : NoReAdd R l) :
    l.foldl nameStep acc = (acc ∪ addedAll l) \ removedAll l := by
  induction l generalizing R acc with
  | nil => simp [addedAll, removedAll]
  | cons r rest ih =>
      obtain ⟨h1, h2⟩ := h
      rw [List.foldl_cons, ih (R ∪ removeSet r) _ h2]
      have hA : ∀ n ∈ addSet r, n ∉ removeSet r := by
        intro n hn hc
        exact h1 n hn (Finset.mem_union_right _ hc)
      have hC : ∀ n ∈ addedAll rest, n ∉ removeSet r := by
        intro n hn hc
        exact NoReAdd_addedAll rest _ h2 n hn (Finset.mem_union_right _ hc)
      ext x
      have hA' := fun hx => hA x hx
      have hC' := fun hx => hC x hx
      simp only [nameStep, addedAll, removedAll, Finset.mem_sdiff,
        Finset.mem_union]
      tauto

theorem liveFiles_names (l : List LogRecord) (acc : List DataFile) :
    ((l.foldl fileStep acc).map DataFile.name).toFinset
      = l.foldl nameStep ((acc.map DataFile.name).toFinset) := by
  induction l generalizing acc with
  | nil => rfl
  | cons r rest ih =>
      rw [List.foldl_cons, List.foldl_cons, ih]
      have hstep : ((fileStep acc r).map DataFile.name).toFinset
          = nameStep ((acc.map DataFile.name).toFinset) r := by
        ext n
        simp only [fileStep, nameStep, addSet, removeSet, List.map_append,
          List.toFinset_append, Finset.mem_union, List.mem_toFinset,
          List.mem_map, List.mem_filter, Finset.mem_sdiff,
          decide_eq_true_eq]
        constructor
        · rintro (⟨f, ⟨hf, hnr⟩, rfl⟩ | ⟨f, hf, rfl⟩)
          · exact Or.inl ⟨⟨f, hf, rfl⟩, hnr⟩
          · exact Or.inr ⟨f, hf, rfl⟩
        · rintro (⟨⟨f, hf, rfl⟩, hnr⟩ | ⟨f, hf, rfl⟩)
          · exact Or.inl ⟨f, ⟨hf, hnr⟩, rfl⟩
          · exact Or.inr ⟨f, hf, rfl⟩
      rw [hstep]

/-- C2: for every version `v` of a well-formed log (the engine's fresh file
names ensure a removed file is never re-added), the set of live data-file
names of the snapshot resolved at `v` equals exactly the names added by
commits with version ≤ v minus the names removed by commits with version
≤ v, and this set equals the left fold of the log records applied in
strictly increasing version order (record with version `k` sits at log
position `k`, so `resolveNames` of the prefix is exactly that fold, with no
reordering). -/
theorem snapshot_live_set (log : List LogRecord) (v : Nat)
    (h : NoReAdd ∅ (log.take (v + 1))) :
    ((liveAt log v).map DataFile.name).toFinset
        = addedAll (log.take (v + 1)) \ removedAll (log.take (v + 1)) ∧
    ((liveAt log v).map DataFile.name).toFinset
        = resolveNames (log.take (v + 1)) := by
  have hl := liveFiles_names (log.take (v + 1)) []
  have hf := foldl_nameStep_eq (log.take (v + 1)) ∅ ∅ h
  have hres : ((liveAt log v).map DataFile.name).toFinset
      = resolveNames (log.take (v + 1)) := by
    rw [liveAt, liveFiles, hl]; rfl
  refine ⟨?_, hres⟩
  rw [hres, resolveNames, hf, Finset.empty_union]

/-- Witness for C2: a concrete three-commit log (create, one insert, one
copy-on-write update removing file 0 and adding file 1). -/
def wLog : List LogRecord :=
  [⟨0, .CREATE, [], [], some empSchema⟩,
   ⟨1, .INSERT, [⟨0, [row3]⟩], [], none⟩,
   ⟨2, .UPDATE, [⟨1, [row4]⟩], [0], none⟩]

/-- Witness for C2: on the concrete log `wLog` at version 2 the live name
set is adds-minus-removes and equals the ordered left fold. -/
theorem snapshot_live_set_witness :
    ((liveAt wLog 2).map DataFile.name).toFinset
        = addedAll (wLog.take 3) \ removedAll (wLog.take 3) ∧
    ((liveAt wLog 2).map DataFile.name).toFinset
        = resolveNames (wLog.take 3) :=
  snapshot_live_set wLog 2
    (by simp [wLog, NoReAdd, addSet, removeSet])

/-- C3: for every log and version `v`, resolving the snapshot at `v` by
replaying the full log from version 0 yields the same live file list as
resolving via any valid checkpoint with `checkpointVersion ≤ v` followed by
tail replay, and hence the same query results; a checkpoint never changes
the result (a missing checkpoint is the full replay `liveAt` itself). -/
theorem checkpoint_transparency (log : List LogRecord) (ck : Checkpoint)
    (v : Nat) (hv : ck.version ≤ v) (hck : ValidCheckpoint log ck) :
    resolveFrom ck log v = liveAt log v ∧
    ((resolveFrom ck log v).map DataFile.rows).flatten
        = ((liveAt log v).map DataFile.rows).flatten := by
  have key : resolveFrom ck log v = liveAt log v := by
    unfold ValidCheckpoint at hck
    unfold resolveFrom liveAt liveFiles at *
    rw [hck]
    have h1 : log.take (ck.version + 1)
        = (log.take (v + 1)).take (ck.version + 1) := by
      rw [List.take_take, min_eq_left (by omega)]
    rw [h1, ← List.foldl_append, List.take_append_drop]
  exact ⟨key, by rw [key]⟩

/-- Witness for C3: on the concrete log `wLog`, resolving version 2 via the
valid checkpoint taken at version 1 equals the full replay from version 0,
for the file list and for the query rows. -/
theorem checkpoint_transparency_witness :
    resolveFrom ⟨1, liveAt wLog 1⟩ wLog 2 = liveAt wLog 2 ∧
    ((resolveFrom ⟨1, liveAt wLog 1⟩ wLog 2).map DataFile.rows).flatten
        = ((liveAt wLog 2).map DataFile.rows).flatten :=
  checkpoint_transparency wLog ⟨1, liveAt wLog 1⟩ 2 (by decide) rfl

/-- C5: `create(schema)` fails with AlreadyExists exactly when
`latestVersion()` is defined (equivalently, the log is non-empty);
otherwise it succeeds and commits version 0 with operation kind CREATE,
empty added/removed file sets and the given schema. -/
theorem create_spec (schema : Schema) (st : TableState) :
    ((create schema st = .error .alreadyExists) ↔ (latestVersion st).isSome) ∧
    ((latestVersion st).isSome ↔ st.log ≠ []) ∧
    (st.log = [] →
      create schema st
        = .ok ⟨[⟨0, .CREATE, [], [], some schema⟩], st.nextFile⟩) := by
  obtain ⟨log, nf⟩ := st
  cases log with
  | nil => simp [create, latestVersion, commit]
  | cons r rs => simp [create, latestVersion, commit]

/-- Witness for C5: creating the `employees` table on the empty table state
succeeds and commits version 0 with CREATE, no files and the schema. -/
theorem create_spec_witness :
    create empSchema st0
      = .ok ⟨[⟨0, .CREATE, [], [], some empSchema⟩], 0⟩ :=
  (create_spec empSchema st0).2.2 rfl

theorem liveFiles_append_single (log : List LogRecord) (r : LogRecord) :
    liveFiles (log ++ [r]) = fileStep (liveFiles log) r := by
  rw [liveFiles, liveFiles, List.foldl_append, List.foldl_cons, List.foldl_nil]

theorem update_log (p : Row → Bool) (t : Row → Row) (st : TableState) :
    (update p t st).log = st.log ++ [updateRec p t st] := rfl

theorem rewriteFiles_mem (p : Row → Bool) (t : Row → Row) (n : Nat)
    (fs : List DataFile) (f : DataFile) (hf : f ∈ fs) :
    ∃ g ∈ rewriteFiles p t n fs, g.rows = f.rows.map (rewriteRow p t) := by
  induction fs generalizing n with
  | nil => cases hf
  | cons a fs ih =>
      rcases List.mem_cons.mp hf with rfl | hf
      · exact ⟨⟨n, f.rows.map (rewriteRow p t)⟩, List.mem_cons_self _ _, rfl⟩
      · obtain ⟨g, hg, hgr⟩ := ih (n + 1) hf
        exact ⟨g, List.mem_cons_of_mem _ hg, hgr⟩

theorem rewriteFiles_name_ge (p : Row → Bool) (t : Row → Row) (n : Nat)
    (fs : List DataFile) : ∀ g ∈ rewriteFiles p t n fs, n ≤ g.name := by
  induction fs generalizing n with
  | nil => intro g hg; cases hg
  | cons a fs ih =>
      intro g hg
      rcases List.mem_cons.mp hg with rfl | hg
      · exact Nat.le_refl n
      · exact Nat.le_of_succ_le (ih (n + 1) g hg)

theorem touched_name_iff (p : Row → Bool) (st : TableState) (f : DataFile)
    (hnd : ((liveFiles st.log).map DataFile.name).Nodup)
    (hf : f ∈ liveFiles st.log) :
    f.name ∈ (touchedOf p st).map DataFile.name ↔ f.rows.any p = true := by
  constructor
  · intro hmem
    obtain ⟨g, hg, hgname⟩ := List.mem_map.mp hmem
    obtain ⟨hgl, hgp⟩ := List.mem_filter.mp hg
    have : g = f := List.inj_on_of_nodup_map hnd hgl hf hgname
    exact this ▸ hgp
  · intro hp
    exact List.mem_map.mpr ⟨f, List.mem_filter.mpr ⟨hf, hp⟩, rfl⟩

/-- C6: in every `update(predicate, transform)` on a table whose live files
have unique names below the fresh-name counter (the engine's data-file
naming invariant), every live file containing no matching row appears
unchanged in the resulting snapshot and is listed in neither the added nor
the removed set of the UPDATE commit; every live file containing at least
one matching row is listed in the removed set, leaves the snapshot, and is
replaced by a newly encoded file in the added set holding its rows with the
transform applied to exactly the matching ones. -/
theorem update_frame (p : Row → Bool) (t : Row → Row) (st : TableState)
    (f : DataFile)
    (hnd : ((liveFiles st.log).map DataFile.name).Nodup)
    (hfresh : ∀ g ∈ liveFiles st.log, g.name < st.nextFile)
    (hf : f ∈ liveFiles st.log) :
    (f.rows.any p = false →
        f ∈ liveFiles (update p t st).log ∧
        f ∉ (updateRec p t st).adds ∧
        f.name ∉ (updateRec p t st).removes) ∧
    (f.rows.any p = true →
        f.name ∈ (updateRec p t st).removes ∧
        f ∉ liveFiles (update p t st).log ∧
        ∃ g ∈ (updateRec p t st).adds,
          g.rows = f.rows.map (rewriteRow p t)) := by
  have hlive : liveFiles (update p t st).log
      = fileStep (liveFiles st.log) (updateRec p t st) := by
    rw [update_log, liveFiles_append_single]
  have hadds : (updateRec p t st).adds
      = rewriteFiles p t st.nextFile (touchedOf p st) := rfl
  have hrem : (updateRec p t st).removes
      = (touchedOf p st).map DataFile.name := rfl
  have hnotadds : f ∉ (updateRec p t st).adds := by
    intro hmem
    exact absurd (rewriteFiles_name_ge p t st.nextFile (touchedOf p st) f
      (hadds ▸ hmem)) (Nat.not_le_of_lt (hfresh f hf))
  constructor
  · intro hm
    have hnr : f.name ∉ (updateRec p t st).removes := by
      rw [hrem]
      intro hmem
      rw [touched_name_iff p st f hnd hf] at hmem
      rw [hm] at hmem
      cases hmem
    refine ⟨?_, hnotadds, hnr⟩
    rw [hlive]
    apply List.mem_append_left
    exact List.mem_filter.mpr ⟨hf, by simpa using hnr⟩
  · intro hm
    have hinr : f.name ∈ (updateRec p t st).removes := by
      rw [hrem, touched_name_iff p st f hnd hf]
      exact hm
    refine ⟨hinr, ?_, ?_⟩
    · rw [hlive]
      intro hmem
      rcases List.mem_append.mp hmem with hmem | hmem
      · have := (List.mem_filter.mp hmem).2
        simp only [decide_eq_true_eq] at this
        exact this hinr
      · exact hnotadds hmem
    · rw [hadds]
      exact rewriteFiles_mem p t st.nextFile (touchedOf p st) f
        (List.mem_filter.mpr ⟨hf, hm⟩)

/-- Witness for C6: in the notebook's UPDATE on the table after both
inserts, the first inserted file holds a matching 'John' row, so it is
removed, leaves the snapshot, and is replaced by its rewrite. -/
theorem update_frame_witness :
    (⟨0, [row1, row2, row3, row4, row5]⟩ : DataFile).name
        ∈ (updateRec johnPred raiseSalary stAfterInserts).removes ∧
    (⟨0, [row1, row2, row3, row4, row5]⟩ : DataFile)
        ∉ liveFiles (update johnPred raiseSalary stAfterInserts).log ∧
    ∃ g ∈ (updateRec johnPred raiseSalary stAfterInserts).adds,
      g.rows = (⟨0, [row1, row2, row3, row4, row5]⟩ : DataFile).rows.map
        (rewriteRow johnPred raiseSalary) :=
  (update_frame johnPred raiseSalary stAfterInserts
    ⟨0, [row1, row2, row3, row4, row5]⟩
    (by decide) (by decide) (by decide)).2 (by decide)

theorem rewrite_rowsum (p : Row → Bool) (t : Row → Row) (n : Nat)
    (l : List DataFile) :
    (((l.filter (fun f => !(f.rows.any p))).map
        (fun f => f.rows.length)).sum
      + ((rewriteFiles p t n (l.filter (fun f => f.rows.any p))).map
          (fun f => f.rows.length)).sum)
      = (l.map (fun f => f.rows.length)).sum := by
  induction l generalizing n with
  | nil => simp [rewriteFiles]
  | cons f fs ih =>
      by_cases hm : f.rows.any p
      · rw [List.filter_cons_of_neg (by simp [hm]),
          List.filter_cons_of_pos (by simp [hm])]
        simp only [rewriteFiles, List.map_cons, List.sum_cons,
          List.length_map]
        have := ih (n + 1)
        omega
      · rw [List.filter_cons_of_pos (by simp [hm]),
          List.filter_cons_of_neg (by simp [hm])]
        simp only [List.map_cons, List.sum_cons]
        have := ih n
        omega

/-- C10: `update` preserves the table's total row count — it rewrites
matching rows in place of their files but never adds or drops a row (the
table must satisfy the engine's unique-file-name invariant). -/
theorem update_preserves_rowcount (p : Row → Bool) (t : Row → Row)
    (st : TableState)
    (hnd : ((liveFiles st.log).map DataFile.name).Nodup) :
    (querySnapshot (update p t st)).length = (querySnapshot st).length := by
  have hfilters : (liveFiles st.log).filter
        (fun f => decide (f.name ∉ (updateRec p t st).removes))
      = (liveFiles st.log).filter (fun f => !(f.rows.any p)) := by
    apply List.filter_congr
    intro f hf
    by_cases hm : f.rows.any p
    · have : f.name ∈ (updateRec p t st).removes :=
        (touched_name_iff p st f hnd hf).mpr hm
      simp [this, hm]
    · have : f.name ∉ (updateRec p t st).removes := by
        intro hmem
        exact hm ((touched_name_iff p st f hnd hf).mp hmem)
      simp [this, hm]
  have hlive : liveFiles (update p t st).log
      = fileStep (liveFiles st.log) (updateRec p t st) := by
    rw [update_log, liveFiles_append_single]
  rw [querySnapshot, querySnapshot, hlive, fileStep, hfilters]
  rw [List.length_flatten, List.length_flatten]
  simp only [List.map_append, List.map_map, List.sum_append]
  have := rewrite_rowsum p t st.nextFile (liveFiles st.log)
  simpa [Function.comp, touchedOf, updateRec] using this

/-- Witness for C10: the notebook table holds 7 rows before the UPDATE on
name = 'John' and still 7 rows (the same count) after it. -/
theorem update_preserves_rowcount_witness :
    (querySnapshot stAfterInserts).length = 7 ∧
    (querySnapshot (update johnPred raiseSalary stAfterInserts)).length
      = (querySnapshot stAfterInserts).length :=
  ⟨rfl, update_preserves_rowcount johnPred raiseSalary stAfterInserts
    (by decide)⟩

/-- C7: in the notebook scenario — create with schema `{id:int, name:string,
salary:double}`, insert of 5 rows, insert of 2 duplicate rows —
`querySnapshot()` returns exactly 7 rows; after
`update(name = 'John', salary *= 1.1)` the snapshot shows both 'John' rows
with salary multiplied by 1.1 (100000 → 110000), all other rows unchanged,
and the latest version is incremented by exactly one for the update
(2 → 3). -/
theorem notebook_scenario :
    (querySnapshot stAfterInserts).length = 7 ∧
    querySnapshot stAfterUpdate
      = [row1Up, row2, row3, row4, row5, row6Up, row7] ∧
    latestVersion stAfterInserts = some 2 ∧
    latestVersion stAfterUpdate = some 3 := by
  refine ⟨rfl, ?_, rfl, rfl⟩
  have h0 : querySnapshot stAfterUpdate
      = [raiseSalary row1, row2, row3, row4, row5, raiseSalary row6, row7] :=
    rfl
  have h1 : raiseSalary row1 = row1Up := by
    simp only [raiseSalary, row1, row1Up, List.cons.injEq, Value.vDbl.injEq,
      and_true, true_and]
    norm_num
  have h6 : raiseSalary row6 = row6Up := by
    simp only [raiseSalary, row6, row6Up, List.cons.injEq, Value.vDbl.injEq,
      and_true, true_and]
    norm_num
  rw [h0, h1, h6]

/-- Counterexample for C8: after the scenario's four commits (CREATE, one
INSERT per insert call, UPDATE), `describeHistory()` has 4 entries, not 3
as claimed. -/
theorem describeHistory_not_three :
    (describeHistory stAfterUpdate).length = 4 ∧
    ¬ (describeHistory stAfterUpdate).length = 3 :=
  ⟨rfl, by decide⟩

/-- C8 (amended): after the notebook scenario (create, two insert calls,
one update), `describeHistory()` returns exactly 4 entries — CREATE, one
INSERT per insert call, and UPDATE — listed in commit order with contiguous
versions 0..3. -/
theorem describeHistory_scenario :
    describeHistory stAfterUpdate
      = [(0, .CREATE), (1, .INSERT), (2, .INSERT), (3, .UPDATE)] := rfl

theorem inv_init (log0 : List LogRecord) (fA fB : List DataFile) :
    Inv log0 fA fB ⟨log0, .idle, .idle⟩ := rfl

theorem inv_step (log0 : List LogRecord) (fA fB : List DataFile)
    (s s' : CSys) (hs : Inv log0 fA fB s) (hstep : CStep fA fB s s') :
    Inv log0 fA fB s' := by
  cases hstep with
  | readA log pB =>
      cases pB with
      | idle =>
          simp only [Inv] at hs ⊢
          exact ⟨hs, by rw [hs]⟩
      | proposed w =>
          simp only [Inv] at hs ⊢
          exact ⟨hs.1, by rw [hs.1], hs.2⟩
      | done vb =>
          simp only [Inv] at hs ⊢
          refine ⟨hs.1, hs.2, Or.inr ?_⟩
          rw [hs.1]
          simp
  | commitA log pB v h =>
      cases pB with
      | idle =>
          simp only [Inv] at hs ⊢
          exact ⟨by rw [hs.1], hs.2⟩
      | proposed w =>
          simp only [Inv] at hs ⊢
          exact ⟨by rw [hs.1], hs.2.1, Or.inl hs.2.2⟩
      | done vb =>
          simp only [Inv] at hs ⊢
          obtain ⟨h1, h2, h3⟩ := hs
          have hlen : log.length = log0.length + 1 := by
            rw [h1]; simp
          have hv : v = log0.length + 1 := by omega
          refine Or.inr ⟨h2, hv, ?_⟩
          rw [h1]
          simp
  | conflictA log pB v h =>
      cases pB with
      | idle => simp only [Inv] at hs ⊢; exact hs.1
      | proposed w => simp only [Inv] at hs ⊢; exact ⟨hs.1, hs.2.2⟩
      | done vb => simp only [Inv] at hs ⊢; exact ⟨hs.1, hs.2.1⟩
  | readB log pA =>
      cases pA with
      | idle =>
          simp only [Inv] at hs ⊢
          exact ⟨hs, by rw [hs]⟩
      | proposed w =>
          simp only [Inv] at hs ⊢
          exact ⟨hs.1, hs.2, by rw [hs.1]⟩
      | done va =>
          simp only [Inv] at hs ⊢
          refine ⟨hs.1, hs.2, Or.inr ?_⟩
          rw [hs.1]
          simp
  | commitB log pA v h =>
      cases pA with
      | idle =>
          simp only [Inv] at hs ⊢
          exact ⟨by rw [hs.1], hs.2⟩
      | proposed w =>
          simp only [Inv] at hs ⊢
          exact ⟨by rw [hs.1], hs.2.2, Or.inl hs.2.1⟩
      | done va =>
          simp only [Inv] at hs ⊢
          obtain ⟨h1, h2, h3⟩ := hs
          have hlen : log.length = log0.length + 1 := by
            rw [h1]; simp
          have hv : v = log0.length + 1 := by omega
          refine Or.inl ⟨h2, hv, ?_⟩
          rw [h1]
          simp
  | conflictB log pA v h =>
      cases pA with
      | idle => simp only [Inv] at hs ⊢; exact hs.1
      | proposed w => simp only [Inv] at hs ⊢; exact ⟨hs.1, hs.2.1⟩
      | done va => simp only [Inv] at hs ⊢; exact ⟨hs.1, hs.2.1⟩

theorem inv_reachable (log0 : List LogRecord) (fA fB : List DataFile)
    (s : CSys)
    (h : Relation.ReflTransGen (CStep fA fB) ⟨log0, .idle, .idle⟩ s) :
    Inv log0 fA fB s := by
  induction h with
  | refl => exact inv_init log0 fA fB
  | tail hsteps hstep ih => exact inv_step log0 fA fB _ _ ih hstep

theorem fileStep_insRec (acc : List DataFile) (v : Nat)
    (fs : List DataFile) : fileStep acc (insRec v fs) = acc ++ fs := by
  simp [fileStep, insRec]

/-- C9: when two callers concurrently insert into the same table under the
create-if-absent commit protocol, any interleaved execution in which both
have committed gives them distinct version numbers, and the final live file
set is the live set of the initial log together with the union of both
callers' inserted files — regardless of which commit won each version
slot. -/
theorem concurrent_inserts (log0 : List LogRecord) (fA fB : List DataFile)
    (s : CSys) (va vb : Nat)
    (h : Relation.ReflTransGen (CStep fA fB) ⟨log0, .idle, .idle⟩ s)
    (ha : s.pA = .done va) (hb : s.pB = .done vb) :
    va ≠ vb ∧
    ((liveFiles s.log).map DataFile.name).toFinset
      = ((liveFiles log0).map DataFile.name).toFinset
          ∪ (fA.map DataFile.name).toFinset
          ∪ (fB.map DataFile.name).toFinset := by
  have hinv := inv_reachable log0 fA fB s h
  obtain ⟨log, pA, pB⟩ := s
  simp only at ha hb
  subst ha hb
  simp only [Inv] at hinv
  rcases hinv with ⟨h1, h2, h3⟩ | ⟨h1, h2, h3⟩
  · refine ⟨by omega, ?_⟩
    rw [h3]
    have : log0 ++ [insRec va fA, insRec vb fB]
        = (log0 ++ [insRec va fA]) ++ [insRec vb fB] := by simp
    rw [this, liveFiles_append_single, liveFiles_append_single,
      fileStep_insRec, fileStep_insRec]
    simp [Finset.union_assoc]
  · refine ⟨by omega, ?_⟩
    rw [h3]
    have : log0 ++ [insRec vb fB, insRec va fA]
        = (log0 ++ [insRec vb fB]) ++ [insRec va fA] := by simp
    rw [this, liveFiles_append_single, liveFiles_append_single,
      fileStep_insRec, fileStep_insRec]
    simp only [List.map_append, List.toFinset_append]
    rw [Finset.union_assoc, Finset.union_comm
      ((fB.map DataFile.name).toFinset), ← Finset.union_assoc]

/-- Witness for C9: the execution where caller A (inserting file 10) reads,
commits version 0, then caller B (inserting file 11) reads and commits
version 1; both succeed with distinct versions and the final live set is
the union of both inserted files. -/
theorem concurrent_inserts_witness :
    (0 : Nat) ≠ 1 ∧
    ((liveFiles [insRec 0 [⟨10, [row1]⟩], insRec 1 [⟨11, [row2]⟩]]).map
        DataFile.name).toFinset
      = ((liveFiles ([] : List LogRecord)).map DataFile.name).toFinset
          ∪ ([(⟨10, [row1]⟩ : DataFile)].map DataFile.name).toFinset
          ∪ ([(⟨11, [row2]⟩ : DataFile)].map DataFile.name).toFinset :=
  concurrent_inserts [] [⟨10, [row1]⟩] [⟨11, [row2]⟩]
    ⟨[insRec 0 [⟨10, [row1]⟩], insRec 1 [⟨11, [row2]⟩]], .done 0, .done 1⟩
    0 1
    (.head (.readA [] .idle)
      (.head (.commitA [] .idle 0 rfl)
        (.head (.readB [insRec 0 [⟨10, [row1]⟩]] (.done 0))
          (.single (.commitB [insRec 0 [⟨10, [row1]⟩]] (.done 0) 1 rfl)))))
    rfl rfl

end Delta
